import Mathlib

/-!
Shallow embedding of the Course Builder peer-review subsystem
(coursebuilder/models/review.py): the `ReviewUtils` helpers and the
`ReviewsProcessor` operations over `StudentWorkEntity` records, together
with theorems settling the specification claims about them.

Python dicts are embedded as insertion-ordered association lists, the
datastore as a list of entities scanned in order, machine integers as
Int/Nat, and fallible code as `Except` values whose error constructors
name the fault the Python code actually raises (KeyError, TypeError,
AssertionError) alongside the specification's error kinds (NotFound,
InvalidInput), which the reference code never produces.
-/

/-- Error kinds. `notFound` and `invalidInput` are the specification's
taxonomy; `keyError`, `typeError` and `assertionError` are the Python-level
faults the reference implementation actually raises (indexing a missing
dict key, subscripting None, a failed assert). -/
inductive Err where
  | notFound
  | invalidInput
  | keyError
  | typeError
  | assertionError
deriving DecidableEq

/-- One answer of a submission: `item` dicts with an `index` and a `value`
field, as consumed by `ReviewUtils.get_answer_list`. -/
structure SubItem where
  index : Int
  value : String
deriving DecidableEq

/-- A reviewer's entry in a work record's `reviewers` dict, as created by
`ReviewsProcessor.add_reviewer`: `review` is None until submitted,
`is_draft` starts True, `date_added` is a UTC epoch timestamp. -/
structure Assignment where
  review : Option String
  is_draft : Bool
  date_added : Nat
deriving DecidableEq

/-- A Python dict keyed by reviewer identifier, embedded as an
insertion-ordered association list (real dicts never hold duplicate keys;
well-formedness is `nodupKeys` below). -/
abbrev Reviewers := List (String × Assignment)

/-- The JSON document stored in `StudentWorkEntity.data`:
`submission` holds the answers, `reviewers` the assignment dict. -/
structure WorkData where
  submission : List SubItem
  reviewers : Reviewers
deriving DecidableEq

/-- A `StudentWorkEntity`: its `key_string` is the composite
`student:unit` key and `data` the parsed JSON work document. -/
structure Entity where
  key_string : String
  data : WorkData
deriving DecidableEq

/-- The datastore of `StudentWorkEntity` rows; `.all()` scans it in list
order (a fixed, deterministic scan order). -/
abbrev Store := List Entity

/-- Python dict membership `k in d`. -/
def dictMem (d : Reviewers) (k : String) : Bool :=
  d.any (fun p => p.1 == k)

/-- Python dict lookup `d[k]`, returning `none` where Python raises
KeyError. -/
def dictGet (d : Reviewers) (k : String) : Option Assignment :=
  (d.find? (fun p => p.1 == k)).map (fun p => p.2)

/-- Python dict assignment `d[k] = v`: replaces the value of an existing
key in place, otherwise appends the new key at the end. -/
def dictInsert : Reviewers → String → Assignment → Reviewers
  | [], k, v => [(k, v)]
  | p :: rest, k, v => if p.1 == k then (k, v) :: rest else p :: dictInsert rest k v

/-- Python `del d[k]`: removes the entry for `k` (the first, and in a real
dict only, occurrence). -/
def dictErase : Reviewers → String → Reviewers
  | [], _ => []
  | p :: rest, k => if p.1 == k then rest else p :: dictErase rest k

/-- Well-formedness of an embedded dict: keys are pairwise distinct, as in
every real Python dict. -/
def nodupKeys (d : Reviewers) : Prop :=
  (d.map Prod.fst).Nodup

/-- Number of entries of `d` carrying key `k`. -/
def countKey (d : Reviewers) (k : String) : Nat :=
  (d.filter (fun p => p.1 == k)).length

/-- Datastore `get_by_key_name`: the row whose key matches, if any. -/
def getWork (σ : Store) (key : String) : Option WorkData :=
  (σ.find? (fun e => e.key_string == key)).map (fun e => e.data)

/-- Datastore `put`: overwrite the data of the row with this key, or
append a fresh row (`_put_student_work` creates the entity when absent). -/
def putWork : Store → String → WorkData → Store
  | [], key, d => [⟨key, d⟩]
  | e :: rest, key, d =>
    if e.key_string == key then ⟨key, d⟩ :: rest else e :: putWork rest key d

/-- Python `str.find` on a character: index of the first occurrence, -1 if
absent. -/
def charFind : List Char → Char → Int
  | [], _ => -1
  | c :: rest, t =>
    if c = t then 0
    else if charFind rest t < 0 then -1 else charFind rest t + 1

/-- Python `s.find(c)`. -/
def pyFind (s : String) (c : Char) : Int :=
  charFind s.data c

/-- Python slice `s[:i]`, including the negative-index convention. -/
def pySliceTo (s : String) (i : Int) : String :=
  if i < 0 then String.mk (s.data.take (s.data.length - (-i).toNat))
  else String.mk (s.data.take i.toNat)

/-- Python slice `s[i:]`, including the negative-index convention. -/
def pySliceFrom (s : String) (i : Int) : String :=
  if i < 0 then String.mk (s.data.drop (s.data.length - (-i).toNat))
  else String.mk (s.data.drop i.toNat)

/-- The composite datastore key built by `_put_student_work`:
`':'.join([student.key().name(), str(unit.unit_id)])`. -/
def joinKey (student unit : String) : String :=
  student ++ ":" ++ unit

/-- The student part of a scanned key: `key[:key.find(':')]`. -/
def parseStudent (key : String) : String :=
  pySliceTo key (pyFind key ':')

/-- The unit part of a scanned key: `key[key.find(':') + 1:]`. -/
def parseUnit (key : String) : String :=
  pySliceFrom key (pyFind key ':' + 1)

/-- A review dict as consumed by the `ReviewUtils` counting helpers; the
`is_draft` key may be absent (`none`). -/
structure ReviewItem where
  is_draft : Option Bool
deriving DecidableEq

/-- The progress-state constants carried by the `progress_tracker`
argument of `get_review_progress` (its docstring documents them as
0 = not started, 1 = in progress, 2 = completed). -/
structure ProgressTracker where
  COMPLETED_STATE : Nat
  IN_PROGRESS_STATE : Nat
  NOT_STARTED_STATE : Nat
deriving DecidableEq

/-- `ReviewUtils.count_completed_reviews`: counts reviews where the
`is_draft` key is present and its value falsy. -/
def count_completed_reviews (reviews : List ReviewItem) : Nat :=
  reviews.foldl (fun count r => if r.is_draft = some false then count + 1 else count) 0

/-- `ReviewUtils.has_completed_enough_reviews`: completed count at least
the minimum required. -/
def has_completed_enough_reviews (reviews : List ReviewItem) (review_min_count : Int) : Bool :=
  decide (review_min_count ≤ (count_completed_reviews reviews : Int))

/-- `ReviewUtils.get_review_progress`: three-way progress classification. -/
def get_review_progress (reviews : List ReviewItem) (review_min_count : Int)
    (t : ProgressTracker) : Nat :=
  if has_completed_enough_reviews reviews review_min_count then t.COMPLETED_STATE
  else if 0 < count_completed_reviews reviews then t.IN_PROGRESS_STATE
  else t.NOT_STARTED_STATE

/-- The loop body of `ReviewUtils.get_answer_list`: each item's `index`
must equal the length of the answer list built so far (the source's
assert), else the call fails. -/
def answerLoop : List SubItem → List String → Except Err (List String)
  | [], acc => .ok acc
  | item :: rest, acc =>
    if item.index = (acc.length : Int) then answerLoop rest (acc ++ [item.value])
    else .error .assertionError

/-- `ReviewUtils.get_answer_list`: compiles the list of answer values,
asserting index contiguity. -/
def get_answer_list (submission : List SubItem) : Except Err (List String) :=
  answerLoop submission []

/-- Helper: the completed-review count is the number of reviews whose
`is_draft` value is present and false. -/
theorem count_completed_eq_filter (reviews : List ReviewItem) :
    count_completed_reviews reviews
      = (reviews.filter (fun r => r.is_draft = some false)).length := by
  have h : ∀ (l : List ReviewItem) (c : Nat),
      l.foldl (fun count r => if r.is_draft = some false then count + 1 else count) c
        = c + (l.filter (fun r => r.is_draft = some false)).length := by
    intro l
    induction l with
    | nil => intro c; simp
    | cons r rest ih =>
      intro c
      by_cases hr : r.is_draft = some false
      · simp [List.foldl_cons, List.filter_cons, hr, ih]
        omega
      · simp [List.foldl_cons, List.filter_cons, hr, ih]
  simpa using h reviews 0

/-- A view emitted by `ReviewsProcessor.get_reviewer_reviews` for one work
record the reviewer is assigned to. -/
structure ReviewView where
  student : String
  submission : List SubItem
  review : Option String
  is_draft : Bool
  date_added : Nat
deriving DecidableEq

/-- The scan loop of `ReviewsProcessor.get_new_submission_for_review`,
threading `chosen_student_key` and `min_reviewers_so_far` through the
entity scan exactly as the source does. -/
def assignGo (reviewer unit : String) : Store → Option String → Nat → Option String
  | [], chosen, _ => chosen
  | e :: rest, chosen, minSoFar =>
    if parseUnit e.key_string ≠ unit then assignGo reviewer unit rest chosen minSoFar
    else if dictMem e.data.reviewers reviewer then assignGo reviewer unit rest chosen minSoFar
    else if parseStudent e.key_string = reviewer then assignGo reviewer unit rest chosen minSoFar
    else if e.data.reviewers.length < minSoFar then
      assignGo reviewer unit rest (some (parseStudent e.key_string)) e.data.reviewers.length
    else assignGo reviewer unit rest chosen minSoFar

/-- `ReviewsProcessor.get_new_submission_for_review`: least-loaded scan
starting from `chosen_student_key = None` and
`min_reviewers_so_far = 99999`. -/
def get_new_submission_for_review (reviewer unit : String) (σ : Store) : Option String :=
  assignGo reviewer unit σ none 99999

/-- `ReviewsProcessor.get_student_work` and `_get_student_work`: fetch the
work record for the composite key, `none` if absent. -/
def get_student_work (student unit : String) (σ : Store) : Option WorkData :=
  getWork σ (joinKey student unit)

/-- `ReviewsProcessor.submit_student_work`: store a fresh work document
with the given answers and an empty reviewers dict (overwriting any record
already stored under that key). -/
def submit_student_work (student unit : String) (answers : List SubItem) (σ : Store) : Store :=
  putWork σ (joinKey student unit) ⟨answers, []⟩

/-- `ReviewsProcessor.submit_review`: fetch the record (subscripting the
None result of a missing record raises TypeError), index the reviewers
dict (a missing reviewer entry raises KeyError), update the entry's
`review` and `is_draft` fields and persist. -/
def submit_review (student unit reviewer : String) (review_data : String) (is_draft : Bool)
    (σ : Store) : Except Err Store :=
  match getWork σ (joinKey student unit) with
  | none => .error .typeError
  | some w =>
    match dictGet w.reviewers reviewer with
    | none => .error .keyError
    | some a =>
      .ok (putWork σ (joinKey student unit)
        ⟨w.submission, dictInsert w.reviewers reviewer ⟨some review_data, is_draft, a.date_added⟩⟩)

/-- The scan loop of `ReviewsProcessor.get_reviewer_reviews`: for every
entity of the unit whose reviewers dict contains the reviewer, emit a
view. -/
def scanReviews (reviewer unit : String) : Store → List ReviewView
  | [] => []
  | e :: rest =>
    if parseUnit e.key_string ≠ unit then scanReviews reviewer unit rest
    else
      match dictGet e.data.reviewers reviewer with
      | some a =>
        ⟨parseStudent e.key_string, e.data.submission, a.review, a.is_draft, a.date_added⟩
          :: scanReviews reviewer unit rest
      | none => scanReviews reviewer unit rest

/-- `ReviewsProcessor.get_reviewer_reviews`: the scanned views sorted by
the time the reviewer was assigned (`sorted(reviews, key=date_added)`). -/
def get_reviewer_reviews (reviewer unit : String) (σ : Store) : List ReviewView :=
  (scanReviews reviewer unit σ).mergeSort
    (fun a b => decide (a.date_added ≤ b.date_added))

/-- `ReviewsProcessor.add_reviewer`: fetch the record (None when absent,
so the subsequent subscript raises TypeError), insert a fresh assignment
for the reviewer (review None, draft, date_added now) and persist. -/
def add_reviewer (student unit new_reviewer : String) (now : Nat) (σ : Store) :
    Except Err Store :=
  match getWork σ (joinKey student unit) with
  | none => .error .typeError
  | some w =>
    .ok (putWork σ (joinKey student unit)
      ⟨w.submission, dictInsert w.reviewers new_reviewer ⟨none, true, now⟩⟩)

/-- `ReviewsProcessor.delete_reviewer`: fetch the record (TypeError when
absent), `del` the reviewer's entry (KeyError when no entry), persist. -/
def delete_reviewer (student unit reviewer_to_delete : String) (σ : Store) :
    Except Err Store :=
  match getWork σ (joinKey student unit) with
  | none => .error .typeError
  | some w =>
    if dictMem w.reviewers reviewer_to_delete then
      .ok (putWork σ (joinKey student unit)
        ⟨w.submission, dictErase w.reviewers reviewer_to_delete⟩)
    else .error .keyError

/-- Eligibility of a work record for a reviewer, read off the candidate
filter of `get_new_submission_for_review`: unit matches, reviewer not yet
in the reviewers dict, and the owning student is not the reviewer. -/
def eligible (reviewer unit : String) (e : Entity) : Prop :=
  parseUnit e.key_string = unit ∧ dictMem e.data.reviewers reviewer = false ∧
    parseStudent e.key_string ≠ reviewer

/-- No work record's reviewers dict contains the identifier of the record's
owning student (the student part of its composite key). -/
def SelfFree (σ : Store) : Prop :=
  ∀ e ∈ σ, ∀ p ∈ e.data.reviewers, p.1 ≠ parseStudent e.key_string

/-- States reachable from the empty datastore by the public mutating
operations of `ReviewsProcessor` (failing calls leave no successor). -/
inductive Reachable : Store → Prop
  | init : Reachable []
  | submit (s u : String) (a : List SubItem) {σ : Store} :
      Reachable σ → Reachable (submit_student_work s u a σ)
  | add (s u r : String) (now : Nat) {σ σ' : Store} :
      Reachable σ → add_reviewer s u r now σ = .ok σ' → Reachable σ'
  | review (s u r d : String) (b : Bool) {σ σ' : Store} :
      Reachable σ → submit_review s u r d b σ = .ok σ' → Reachable σ'
  | del (s u r : String) {σ σ' : Store} :
      Reachable σ → delete_reviewer s u r σ = .ok σ' → Reachable σ'

/-- States reachable from the empty datastore when `add_reviewer` is only
ever called with the reviewer distinct from the submitting student and
with colon-free student identifiers (the composite-key separator). -/
inductive ReachableNoSelf : Store → Prop
  | init : ReachableNoSelf []
  | submit (s u : String) (a : List SubItem) {σ : Store} :
      ReachableNoSelf σ → ReachableNoSelf (submit_student_work s u a σ)
  | add (s u r : String) (now : Nat) {σ σ' : Store} :
      ReachableNoSelf σ → ':' ∉ s.data → r ≠ s →
      add_reviewer s u r now σ = .ok σ' → ReachableNoSelf σ'
  | review (s u r d : String) (b : Bool) {σ σ' : Store} :
      ReachableNoSelf σ → submit_review s u r d b σ = .ok σ' → ReachableNoSelf σ'
  | del (s u r : String) {σ σ' : Store} :
      ReachableNoSelf σ → delete_reviewer s u r σ = .ok σ' → ReachableNoSelf σ'

/-- Helper: every row of a store after a put is an old row or the freshly
written one. -/
theorem mem_putWork {σ : Store} {key : String} {d : WorkData} {e : Entity}
    (h : e ∈ putWork σ key d) : e ∈ σ ∨ e = ⟨key, d⟩ := by
  induction σ with
  | nil =>
    simp [putWork] at h
    exact Or.inr h
  | cons hd tl ih =>
    by_cases hk : hd.key_string == key
    · simp [putWork, hk] at h
      rcases h with h | h
      · exact Or.inr h
      · exact Or.inl (List.mem_cons_of_mem _ h)
    · simp [putWork, hk] at h
      rcases h with h | h
      · exact Or.inl (by rw [h]; exact List.mem_cons_self hd tl)
      · rcases ih h with h2 | h2
        · exact Or.inl (List.mem_cons_of_mem _ h2)
        · exact Or.inr h2

/-- Helper: reading back the key just written returns the written data. -/
theorem getWork_putWork_self (σ : Store) (key : String) (d : WorkData) :
    getWork (putWork σ key d) key = some d := by
  induction σ with
  | nil => simp [putWork, getWork]
  | cons hd tl ih =>
    by_cases hk : hd.key_string == key
    · simp [putWork, hk, getWork]
    · simp only [putWork, hk, if_false, Bool.false_eq_true]
      simpa [getWork, List.find?, hk] using ih

/-- Helper: a successful datastore read exhibits a row of the store with
that key and that data. -/
theorem getWork_eq_some {σ : Store} {key : String} {w : WorkData}
    (h : getWork σ key = some w) :
    ∃ e ∈ σ, e.key_string = key ∧ e.data = w := by
  unfold getWork at h
  rcases Option.map_eq_some'.mp h with ⟨e, he, hdata⟩
  refine ⟨e, List.mem_of_find?_eq_some he, ?_, hdata⟩
  have := List.find?_some he
  exact eq_of_beq this

/-- Helper: every entry after a dict assignment is an old entry or the
newly assigned pair. -/
theorem mem_dictInsert {d : Reviewers} {k : String} {v : Assignment} {p : String × Assignment}
    (h : p ∈ dictInsert d k v) : p ∈ d ∨ p = (k, v) := by
  induction d with
  | nil =>
    simp [dictInsert] at h
    exact Or.inr h
  | cons hd tl ih =>
    by_cases hk : hd.1 == k
    · simp [dictInsert, hk] at h
      rcases h with h | h
      · exact Or.inr h
      · exact Or.inl (List.mem_cons_of_mem _ h)
    · simp [dictInsert, hk] at h
      rcases h with h | h
      · exact Or.inl (h ▸ List.mem_cons_self hd tl)
      · rcases ih h with h2 | h2
        · exact Or.inl (List.mem_cons_of_mem _ h2)
        · exact Or.inr h2

/-- Helper: deleting a key keeps only entries that were already present. -/
theorem mem_dictErase {d : Reviewers} {k : String} {p : String × Assignment}
    (h : p ∈ dictErase d k) : p ∈ d := by
  induction d with
  | nil => simp [dictErase] at h
  | cons hd tl ih =>
    by_cases hk : hd.1 == k
    · simp [dictErase, hk] at h
      exact List.mem_cons_of_mem _ h
    · simp [dictErase, hk] at h
      rcases h with h | h
      · exact h ▸ List.mem_cons_self hd tl
      · exact List.mem_cons_of_mem _ (ih h)

/-- Helper: a successful dict lookup exhibits an entry with that key and
that value. -/
theorem dictGet_eq_some {d : Reviewers} {k : String} {a : Assignment}
    (h : dictGet d k = some a) : ∃ p ∈ d, p.1 = k ∧ p.2 = a := by
  unfold dictGet at h
  rcases Option.map_eq_some'.mp h with ⟨p, hp, hval⟩
  refine ⟨p, List.mem_of_find?_eq_some hp, ?_, hval⟩
  have hb : (p.1 == k) = true := by simpa using List.find?_some hp
  exact eq_of_beq hb

/-- Helper: the first colon of `l ++ ':' :: l2` sits at position
`l.length` when `l` itself is colon-free. -/
theorem charFind_append_colon (l l2 : List Char) (h : ':' ∉ l) :
    charFind (l ++ ':' :: l2) ':' = (l.length : Int) := by
  induction l with
  | nil => simp [charFind]
  | cons c rest ih =>
    have hc : c ≠ ':' := fun hc => h (hc ▸ List.mem_cons_self c rest)
    have hrest : ':' ∉ rest := fun hr => h (List.mem_cons_of_mem _ hr)
    have hr := ih hrest
    simp only [List.cons_append, charFind, hc, if_false, List.append_eq]
    rw [hr]
    have hpos : ¬((rest.length : Int) < 0) := by omega
    rw [if_neg hpos]
    simp only [List.length_cons]
    push_cast
    ring

/-- Helper: the characters of a composite key are the student's, a colon,
then the unit's. -/
theorem joinKey_data (s u : String) :
    (joinKey s u).data = s.data ++ ':' :: u.data := by
  unfold joinKey
  rw [String.data_append, String.data_append, List.append_assoc]
  rfl

/-- Helper: parsing the student part back out of a composite key built
from a colon-free student identifier returns that identifier. -/
theorem parseStudent_joinKey (s u : String) (h : ':' ∉ s.data) :
    parseStudent (joinKey s u) = s := by
  unfold parseStudent pyFind
  rw [joinKey_data, charFind_append_colon s.data u.data h]
  unfold pySliceTo
  have hneg : ¬((s.data.length : Int) < 0) := by omega
  rw [if_neg hneg, joinKey_data, Int.toNat_natCast, List.take_left]

/-- Helper: parsing the unit part back out of a composite key built from
a colon-free student identifier returns the unit identifier. -/
theorem parseUnit_joinKey (s u : String) (h : ':' ∉ s.data) :
    parseUnit (joinKey s u) = u := by
  unfold parseUnit pyFind
  rw [joinKey_data, charFind_append_colon s.data u.data h]
  unfold pySliceFrom
  have hneg : ¬((s.data.length : Int) + 1 < 0) := by omega
  rw [if_neg hneg, joinKey_data]
  have h0 : ((s.data.length : Int) + 1) = ((s.data.length + 1 : Nat) : Int) := by
    push_cast
    ring
  rw [h0, Int.toNat_natCast]
  have h2 : s.data ++ ':' :: u.data = (s.data ++ [':']) ++ u.data := by simp
  have h3 : s.data.length + 1 = (s.data ++ [':']).length := by simp
  rw [h2, h3, List.drop_left]

/-- Helper: a key absent from a dict occurs zero times in it. -/
theorem countKey_eq_zero {d : Reviewers} {k : String}
    (h : k ∉ d.map Prod.fst) : countKey d k = 0 := by
  unfold countKey
  rw [List.length_eq_zero]
  rw [List.filter_eq_nil_iff]
  intro p hp
  simp only [ne_eq, beq_iff_eq]
  intro hk
  exact h (List.mem_map.mpr ⟨p, hp, hk⟩)

/-- Helper: dict assignment preserves key distinctness. -/
theorem nodupKeys_dictInsert {d : Reviewers} (k : String) (v : Assignment)
    (h : nodupKeys d) : nodupKeys (dictInsert d k v) := by
  induction d with
  | nil => simp [dictInsert, nodupKeys]
  | cons hd tl ih =>
    unfold nodupKeys at h
    rw [List.map_cons, List.nodup_cons] at h
    by_cases hk : hd.1 == k
    · have hk2 : hd.1 = k := eq_of_beq hk
      unfold nodupKeys
      simp only [dictInsert, hk, if_true, List.map_cons, List.nodup_cons]
      exact ⟨hk2 ▸ h.1, h.2⟩
    · have hne : hd.1 ≠ k := fun he => hk (beq_iff_eq.mpr he)
      have ihd := ih h.2
      unfold nodupKeys
      simp only [dictInsert, hk, if_false, List.map_cons, List.nodup_cons, Bool.false_eq_true]
      refine ⟨?_, ihd⟩
      intro hmem
      rcases List.mem_map.mp hmem with ⟨p, hp, hfst⟩
      rcases mem_dictInsert hp with h2 | h2
      · exact h.1 (List.mem_map.mpr ⟨p, h2, hfst⟩)
      · exact hne (by rw [← hfst, h2])

/-- Helper: after assigning key `k` in a well-formed dict, `k` occurs
exactly once. -/
theorem countKey_dictInsert {d : Reviewers} (k : String) (v : Assignment)
    (h : nodupKeys d) : countKey (dictInsert d k v) k = 1 := by
  induction d with
  | nil => simp [dictInsert, countKey]
  | cons hd tl ih =>
    unfold nodupKeys at h
    rw [List.map_cons, List.nodup_cons] at h
    by_cases hk : hd.1 == k
    · have hk2 : hd.1 = k := eq_of_beq hk
      have htl : countKey tl k = 0 := countKey_eq_zero (hk2 ▸ h.1)
      unfold countKey at htl ⊢
      simp only [dictInsert, hk, if_true, List.filter_cons, beq_self_eq_true, if_true,
        List.length_cons, htl]
    · have ihd := ih h.2
      unfold countKey at ihd ⊢
      simp only [dictInsert, hk, if_false, List.filter_cons, Bool.false_eq_true]
      simpa [hk] using ihd

/-- Helper: `get_review_progress` equals the three-way derivation over the
completed count. -/
theorem get_review_progress_eq (reviews : List ReviewItem) (m : Int) (t : ProgressTracker) :
    get_review_progress reviews m t =
      (if m ≤ ((reviews.filter (fun r => r.is_draft = some false)).length : Int)
        then t.COMPLETED_STATE
        else if 0 < (reviews.filter (fun r => r.is_draft = some false)).length
          then t.IN_PROGRESS_STATE
          else t.NOT_STARTED_STATE) := by
  unfold get_review_progress has_completed_enough_reviews
  rw [count_completed_eq_filter]
  by_cases h1 : m ≤ ((reviews.filter (fun r => r.is_draft = some false)).length : Int)
  · simp [h1]
  · simp [h1]

/-- C5: `get_review_progress` is a pure function of the reviews list and
the minimum count: with pairwise-distinct tracker states it returns
COMPLETED iff the number of reviews whose `is_draft` value is present and
false reaches the minimum, otherwise IN_PROGRESS iff that count is
positive, otherwise NOT_STARTED. -/
theorem get_review_progress_classification (reviews : List ReviewItem) (m : Int)
    (t : ProgressTracker)
    (hci : t.COMPLETED_STATE ≠ t.IN_PROGRESS_STATE)
    (hcn : t.COMPLETED_STATE ≠ t.NOT_STARTED_STATE)
    (hin : t.IN_PROGRESS_STATE ≠ t.NOT_STARTED_STATE) :
    (get_review_progress reviews m t = t.COMPLETED_STATE ↔
      m ≤ ((reviews.filter (fun r => r.is_draft = some false)).length : Int)) ∧
    (get_review_progress reviews m t = t.IN_PROGRESS_STATE ↔
      (((reviews.filter (fun r => r.is_draft = some false)).length : Int) < m ∧
        0 < (reviews.filter (fun r => r.is_draft = some false)).length)) ∧
    (get_review_progress reviews m t = t.NOT_STARTED_STATE ↔
      (((reviews.filter (fun r => r.is_draft = some false)).length : Int) < m ∧
        (reviews.filter (fun r => r.is_draft = some false)).length = 0)) := by
  rw [get_review_progress_eq]
  set n := (reviews.filter (fun r => r.is_draft = some false)).length with hn
  by_cases h1 : m ≤ (n : Int)
  · rw [if_pos h1]
    refine ⟨by simp [h1], ?_, ?_⟩
    · exact ⟨fun hh => absurd hh hci, fun hh => absurd h1 (by omega)⟩
    · exact ⟨fun hh => absurd hh hcn, fun hh => absurd h1 (by omega)⟩
  · rw [if_neg h1]
    by_cases h2 : 0 < n
    · rw [if_pos h2]
      refine ⟨?_, ?_, ?_⟩
      · exact ⟨fun hh => absurd hh.symm hci, fun hmn => absurd hmn h1⟩
      · exact ⟨fun _ => ⟨by omega, h2⟩, fun _ => rfl⟩
      · exact ⟨fun hh => absurd hh hin, fun hh => absurd hh.2 (by omega)⟩
    · rw [if_neg h2]
      refine ⟨?_, ?_, ?_⟩
      · exact ⟨fun hh => absurd hh.symm hcn, fun hmn => absurd hmn h1⟩
      · exact ⟨fun hh => absurd hh.symm hin, fun hh => absurd hh.2 h2⟩
      · exact ⟨fun _ => ⟨by omega, by omega⟩, fun _ => rfl⟩

/-- Witness for C5 at a concrete input: one finalized review against a
minimum of one, with the documented tracker constants, is COMPLETED. -/
theorem get_review_progress_classification_witness :
    get_review_progress [⟨some false⟩] 1 ⟨2, 1, 0⟩ = 2 :=
  (get_review_progress_classification [⟨some false⟩] 1 ⟨2, 1, 0⟩
    (by decide) (by decide) (by decide)).1.mpr (by decide)

/-- C10: with a non-positive minimum count `get_review_progress` always
returns COMPLETED (the completed count, a natural number, always reaches
it); NOT_STARTED is returned exactly when the minimum is positive and no
review in the list has a present, false `is_draft` value. -/
theorem get_review_progress_nonpositive_min (reviews : List ReviewItem) (m : Int)
    (t : ProgressTracker)
    (hcn : t.COMPLETED_STATE ≠ t.NOT_STARTED_STATE)
    (hin : t.IN_PROGRESS_STATE ≠ t.NOT_STARTED_STATE) :
    (m ≤ 0 → get_review_progress reviews m t = t.COMPLETED_STATE) ∧
    (get_review_progress reviews m t = t.NOT_STARTED_STATE ↔
      (0 < m ∧ ∀ r ∈ reviews, r.is_draft ≠ some false)) := by
  rw [get_review_progress_eq]
  set n := (reviews.filter (fun r => r.is_draft = some false)).length with hn
  have hn0 : n = 0 ↔ ∀ r ∈ reviews, r.is_draft ≠ some false := by
    rw [hn, List.length_eq_zero, List.filter_eq_nil_iff]
    simp
  constructor
  · intro hm
    rw [if_pos (by omega)]
  · by_cases h1 : m ≤ (n : Int)
    · rw [if_pos h1]
      constructor
      · intro hh
        exact absurd hh hcn
      · intro hh
        have := hn0.mpr hh.2
        omega
    · rw [if_neg h1]
      by_cases h2 : 0 < n
      · rw [if_pos h2]
        constructor
        · intro hh
          exact absurd hh hin
        · intro hh
          have := hn0.mpr hh.2
          omega
      · rw [if_neg h2]
        constructor
        · intro _
          exact ⟨by omega, hn0.mp (by omega)⟩
        · intro _
          rfl

/-- Witness for C10 at a concrete input: the empty review list with
minimum zero reports COMPLETED. -/
theorem get_review_progress_nonpositive_min_witness :
    get_review_progress [] 0 ⟨2, 1, 0⟩ = 2 :=
  (get_review_progress_nonpositive_min [] 0 ⟨2, 1, 0⟩ (by decide) (by decide)).1 (by decide)

/-- Executable contiguity check: the item at scan position carries index
`n`, the next `n + 1`, and so on. -/
def contigCheck : List SubItem → Int → Bool
  | [], _ => true
  | it :: rest, n => (it.index == n) && contigCheck rest (n + 1)

/-- Helper: the answer loop succeeds with the appended values exactly when
the remaining items continue the index sequence, and otherwise stops at
the first violated assert. -/
theorem answerLoop_eq (sub : List SubItem) : ∀ acc : List String,
    answerLoop sub acc =
      (if contigCheck sub (acc.length : Int) then .ok (acc ++ sub.map (fun it => it.value))
       else .error .assertionError) := by
  induction sub with
  | nil =>
    intro acc
    simp [answerLoop, contigCheck]
  | cons it rest ih =>
    intro acc
    have hstep : answerLoop (it :: rest) acc
        = if it.index = (acc.length : Int) then answerLoop rest (acc ++ [it.value])
          else .error .assertionError := rfl
    have hchk : contigCheck (it :: rest) (acc.length : Int)
        = ((it.index == (acc.length : Int)) && contigCheck rest ((acc.length : Int) + 1)) := rfl
    by_cases h0 : it.index = (acc.length : Int)
    · have hacc : ((acc ++ [it.value]).length : Int) = (acc.length : Int) + 1 := by
        simp
      rw [hstep, if_pos h0, ih (acc ++ [it.value]), hacc, hchk]
      rw [show (it.index == (acc.length : Int)) = true from beq_iff_eq.mpr h0]
      simp only [Bool.true_and]
      by_cases hc : contigCheck rest ((acc.length : Int) + 1)
      · rw [if_pos hc, if_pos hc]
        simp
      · rw [if_neg hc, if_neg hc]
    · rw [hstep, if_neg h0, hchk]
      rw [show (it.index == (acc.length : Int)) = false from beq_eq_false_iff_ne.mpr h0]
      simp

/-- Helper: the executable contiguity check from `n` holds exactly when
the item at each position `i` carries index `n + i`. -/
theorem contigCheck_iff (sub : List SubItem) : ∀ n : Int,
    contigCheck sub n = true ↔ ∀ i : Fin sub.length, (sub.get i).index = n + (i : Nat) := by
  induction sub with
  | nil =>
    intro n
    exact ⟨fun _ i => i.elim0, fun _ => rfl⟩
  | cons it rest ih =>
    intro n
    rw [show contigCheck (it :: rest) n = ((it.index == n) && contigCheck rest (n + 1)) from rfl]
    rw [Bool.and_eq_true, beq_iff_eq, ih (n + 1)]
    constructor
    · rintro ⟨h0, hr⟩ i
      refine Fin.cases ?_ ?_ i
      · simpa using h0
      · intro j
        have hget : (it :: rest).get j.succ = rest.get j := rfl
        have hj := hr j
        rw [hget, hj]
        simp only [Fin.val_succ]
        push_cast
        ring
    · intro h
      have h0 := h ⟨0, by simp⟩
      refine ⟨by simpa using h0, ?_⟩
      intro j
      have hget : (it :: rest).get j.succ = rest.get j := rfl
      have hj := h j.succ
      rw [hget] at hj
      rw [hj]
      simp only [Fin.val_succ]
      push_cast
      ring

/-- C9: for a submission whose item at each position `i` carries index
`i`, `get_answer_list` returns the values in submission order and the
internal index assert never fires; for any submission violating
contiguity, the assert fires (the reference realization of the
specification's InvalidInput rejection) and no result is produced. -/
theorem get_answer_list_contiguous_spec (sub : List SubItem) :
    ((∀ i : Fin sub.length, (sub.get i).index = ((i : Nat) : Int)) →
      get_answer_list sub = .ok (sub.map (fun it => it.value))) ∧
    ((¬ ∀ i : Fin sub.length, (sub.get i).index = ((i : Nat) : Int)) →
      get_answer_list sub = .error .assertionError) := by
  have heq := answerLoop_eq sub ([] : List String)
  have hiff := contigCheck_iff sub 0
  have hzero : (((∀ i : Fin sub.length, (sub.get i).index = 0 + ((i : Nat) : Int))) ↔
      (∀ i : Fin sub.length, (sub.get i).index = ((i : Nat) : Int))) := by
    constructor
    · intro h i
      have := h i
      omega
    · intro h i
      have := h i
      omega
  constructor
  · intro h
    unfold get_answer_list
    rw [heq, if_pos (by simpa using hiff.mpr (hzero.mpr h))]
    simp
  · intro h
    unfold get_answer_list
    rw [heq, if_neg]
    intro hc
    exact h (hzero.mp (hiff.mp (by simpa using hc)))

/-- Witness for C9 at concrete inputs: a contiguous two-answer submission
compiles to its values; a submission starting at index 1 trips the
assert. -/
theorem get_answer_list_contiguous_spec_witness :
    get_answer_list [⟨0, "a"⟩, ⟨1, "b"⟩] = .ok ["a", "b"] ∧
    get_answer_list [⟨1, "x"⟩] = .error .assertionError :=
  ⟨(get_answer_list_contiguous_spec [⟨0, "a"⟩, ⟨1, "b"⟩]).1 (by decide),
   (get_answer_list_contiguous_spec [⟨1, "x"⟩]).2 (by decide)⟩

/-- C8: `submit_student_work` stores, under the composite key, a fresh
record with the given answers and an empty reviewers dict, whatever was
stored there before (last-write-wins, no merge); and from the fresh pool,
submitting work and then asking for any reviewer's reviews in any unit
yields the empty sequence. -/
theorem submit_student_work_fresh_record (s u : String) (a a2 : List SubItem) (σ : Store)
    (r u2 : String) :
    getWork (submit_student_work s u a σ) (joinKey s u) = some ⟨a, []⟩ ∧
    get_reviewer_reviews r u2 (submit_student_work s u a2 []) = [] := by
  constructor
  · exact getWork_putWork_self σ (joinKey s u) ⟨a, []⟩
  · have hstore : submit_student_work s u a2 [] = [⟨joinKey s u, ⟨a2, []⟩⟩] := rfl
    unfold get_reviewer_reviews
    rw [hstore]
    have hscan : scanReviews r u2 [⟨joinKey s u, ⟨a2, []⟩⟩] = [] := by
      unfold scanReviews
      by_cases h : parseUnit (joinKey s u) ≠ u2
      · rw [if_pos h]
        rfl
      · rw [if_neg h]
        rfl
    rw [hscan]
    simp

/-- C7: the sequence returned by `get_reviewer_reviews` is sorted
non-decreasing by `date_added`, for every state of the datastore and any
reviewer and unit (hence for any interleaving of prior `add_reviewer`
calls). -/
theorem get_reviewer_reviews_sorted_by_date (r u : String) (σ : Store) :
    (get_reviewer_reviews r u σ).Pairwise (fun a b => a.date_added ≤ b.date_added) := by
  unfold get_reviewer_reviews
  refine List.Pairwise.imp ?_ (List.sorted_mergeSort ?_ ?_ (scanReviews r u σ))
  · intro a b hab
    simpa using hab
  · intro a b c hab hbc
    simp only [decide_eq_true_eq] at hab hbc ⊢
    omega
  · intro a b
    simp only [Bool.or_eq_true, decide_eq_true_eq]
    omega

/-- C6: from any state holding a well-formed work record for the key,
adding the same reviewer twice (at any two times) succeeds and leaves
exactly one entry for that reviewer in the stored record's reviewers
dict: the second assignment overwrites the first. -/
theorem add_reviewer_twice_single_entry (σ : Store) (s u r : String) (n1 n2 : Nat)
    (w : WorkData) (hw : getWork σ (joinKey s u) = some w) (hnd : nodupKeys w.reviewers) :
    ∃ σ1 σ2 w2, add_reviewer s u r n1 σ = .ok σ1 ∧ add_reviewer s u r n2 σ1 = .ok σ2 ∧
      getWork σ2 (joinKey s u) = some w2 ∧ countKey w2.reviewers r = 1 := by
  set w1 : WorkData := ⟨w.submission, dictInsert w.reviewers r ⟨none, true, n1⟩⟩ with hw1
  set w2 : WorkData := ⟨w1.submission, dictInsert w1.reviewers r ⟨none, true, n2⟩⟩ with hw2
  have h1 : add_reviewer s u r n1 σ = .ok (putWork σ (joinKey s u) w1) := by
    unfold add_reviewer
    rw [hw]
  have hget1 := getWork_putWork_self σ (joinKey s u) w1
  have h2 : add_reviewer s u r n2 (putWork σ (joinKey s u) w1)
      = .ok (putWork (putWork σ (joinKey s u) w1) (joinKey s u) w2) := by
    unfold add_reviewer
    rw [hget1]
  have hget2 := getWork_putWork_self (putWork σ (joinKey s u) w1) (joinKey s u) w2
  refine ⟨putWork σ (joinKey s u) w1,
    putWork (putWork σ (joinKey s u) w1) (joinKey s u) w2, w2, h1, h2, hget2, ?_⟩
  show countKey (dictInsert w1.reviewers r ⟨none, true, n2⟩) r = 1
  exact countKey_dictInsert r _ (nodupKeys_dictInsert r _ hnd)

/-- Witness for C6 at a concrete input: adding reviewer R twice to a
record with no reviewers leaves a single R entry. -/
theorem add_reviewer_twice_single_entry_witness :
    ∃ σ1 σ2 w2, add_reviewer "S" "u" "R" 1 [⟨"S:u", ⟨[], []⟩⟩] = .ok σ1 ∧
      add_reviewer "S" "u" "R" 2 σ1 = .ok σ2 ∧
      getWork σ2 (joinKey "S" "u") = some w2 ∧ countKey w2.reviewers "R" = 1 :=
  add_reviewer_twice_single_entry [⟨"S:u", ⟨[], []⟩⟩] "S" "u" "R" 1 2 ⟨[], []⟩
    (by decide) (by simp [nodupKeys])

/-- Counterexample to C3 as stated: with no work record for (S, u),
`submit_review` does not fail with NotFound; it fails with the unrelated
TypeError of subscripting the None returned by the record lookup. -/
theorem submit_review_absent_no_notFound :
    getWork ([] : Store) (joinKey "S" "u") = none ∧
    submit_review "S" "u" "R" "text" false [] ≠ .error .notFound ∧
    submit_review "S" "u" "R" "text" false [] = .error .typeError := by
  refine ⟨rfl, ?_, rfl⟩
  intro h
  rw [show submit_review "S" "u" "R" "text" false []
      = Except.error Err.typeError from rfl] at h
  simp at h

/-- C3 amended: when the work record is absent `submit_review` fails with
TypeError (subscripting None), and when the record exists but the
reviewer has no entry it fails with KeyError (indexing a missing dict
key); in both cases it fails fast rather than silently no-opping, but the
error is the unrelated key-lookup fault, not NotFound. -/
theorem submit_review_error_kinds (σ : Store) (s u r d : String) (b : Bool) :
    (getWork σ (joinKey s u) = none → submit_review s u r d b σ = .error .typeError) ∧
    (∀ w, getWork σ (joinKey s u) = some w → dictGet w.reviewers r = none →
      submit_review s u r d b σ = .error .keyError) := by
  constructor
  · intro h
    unfold submit_review
    rw [h]
  · intro w hw hr
    unfold submit_review
    simp only [hw, hr]

/-- Witness for the C3 amended theorem at concrete inputs: the empty
store (record absent) and a store whose record has no reviewer entry. -/
theorem submit_review_error_kinds_witness :
    submit_review "S" "u" "R" "text" false [] = .error .typeError ∧
    submit_review "S" "u" "R" "text" false [⟨"S:u", ⟨[], []⟩⟩] = .error .keyError :=
  ⟨(submit_review_error_kinds [] "S" "u" "R" "text" false).1 (by decide),
   (submit_review_error_kinds [⟨"S:u", ⟨[], []⟩⟩] "S" "u" "R" "text" false).2
     ⟨[], []⟩ (by decide) (by decide)⟩

/-- Counterexample to C4 as stated: deleting a reviewer that was never
assigned fails, but with KeyError (the `del` on a missing dict key), not
NotFound. -/
theorem delete_reviewer_missing_no_notFound :
    delete_reviewer "S" "u" "R" [⟨"S:u", ⟨[], []⟩⟩] ≠ .error .notFound ∧
    delete_reviewer "S" "u" "R" [⟨"S:u", ⟨[], []⟩⟩] = .error .keyError := by
  refine ⟨?_, rfl⟩
  intro h
  rw [show delete_reviewer "S" "u" "R" [⟨"S:u", ⟨[], []⟩⟩]
      = Except.error Err.keyError from rfl] at h
  simp at h

/-- C4 amended: `delete_reviewer` on an absent record fails with
TypeError, and on an absent reviewer entry with KeyError, not NotFound;
on these error paths no store is produced (the exception fires before the
put), so the persisted record is unchanged. -/
theorem delete_reviewer_error_kinds (σ : Store) (s u r : String) :
    (getWork σ (joinKey s u) = none → delete_reviewer s u r σ = .error .typeError) ∧
    (∀ w, getWork σ (joinKey s u) = some w → dictMem w.reviewers r = false →
      delete_reviewer s u r σ = .error .keyError) := by
  constructor
  · intro h
    unfold delete_reviewer
    rw [h]
  · intro w hw hr
    unfold delete_reviewer
    rw [hw]
    simp [hr]

/-- Witness for the C4 amended theorem at concrete inputs. -/
theorem delete_reviewer_error_kinds_witness :
    delete_reviewer "S" "u" "R" [] = .error .typeError ∧
    delete_reviewer "S" "u" "R" [⟨"S:u", ⟨[], []⟩⟩] = .error .keyError :=
  ⟨(delete_reviewer_error_kinds [] "S" "u" "R").1 (by decide),
   (delete_reviewer_error_kinds [⟨"S:u", ⟨[], []⟩⟩] "S" "u" "R").2
     ⟨[], []⟩ (by decide) (by decide)⟩

/-- Reviewer dicts with `n` distinct keys (runs of 'a' of decreasing
length), none of them the key "R". -/
def bigKeys : Nat → Reviewers
  | 0 => []
  | n + 1 => (String.mk (List.replicate (n + 1) 'a'), ⟨none, true, 0⟩) :: bigKeys n

/-- A reviewers dict holding 99999 distinct reviewer keys, none of them
the key "R". -/
def bigReviewers : Reviewers :=
  bigKeys 99999

/-- A work record for student A in unit u carrying `bigReviewers`. -/
abbrev bigEntity : Entity :=
  ⟨"A:u", ⟨[], bigReviewers⟩⟩

/-- Helper: no run of 'a' characters is the string "R". -/
theorem replicate_a_ne_R (n : Nat) : String.mk (List.replicate n 'a') ≠ "R" := by
  intro h
  have h2 : List.replicate n 'a' = "R".data := congrArg String.data h
  cases n with
  | zero =>
    rw [List.replicate] at h2
    exact absurd h2 (by decide)
  | succ m =>
    rw [List.replicate_succ, show "R".data = ['R'] from rfl] at h2
    injection h2 with h3 _
    exact absurd h3 (by decide)

/-- Helper: the reviewer "R" is not a key of any `bigKeys` dict. -/
theorem bigKeys_no_R (n : Nat) : dictMem (bigKeys n) "R" = false := by
  induction n with
  | zero => rfl
  | succ m ih =>
    unfold bigKeys dictMem
    rw [List.any_cons]
    unfold dictMem at ih
    rw [ih, Bool.or_false]
    exact beq_eq_false_iff_ne.mpr (replicate_a_ne_R (m + 1))

/-- Helper: `bigKeys n` holds exactly `n` entries. -/
theorem bigKeys_length (n : Nat) : (bigKeys n).length = n := by
  induction n with
  | zero => rfl
  | succ m ih =>
    unfold bigKeys
    rw [List.length_cons, ih]

/-- C1 at the failing input: student A's record in unit u is an eligible
candidate for reviewer R (unit matches, R absent from its reviewers, A is
not R), yet `get_new_submission_for_review` returns none, because the
record's 99999 reviewers fail the strict comparison against the
`min_reviewers_so_far = 99999` sentinel - contradicting the function's
own docstring, which promises None only when no valid assignment is
possible. -/
theorem get_new_submission_misses_eligible_candidate :
    eligible "R" "u" bigEntity ∧
    get_new_submission_for_review "R" "u" [bigEntity] = none := by
  have hm : dictMem bigEntity.data.reviewers "R" = false := bigKeys_no_R 99999
  constructor
  · exact ⟨by decide, hm, by decide⟩
  · unfold get_new_submission_for_review
    show assignGo "R" "u" [bigEntity] none 99999 = none
    unfold assignGo
    have hu : ¬(parseUnit bigEntity.key_string ≠ "u") := by decide
    have hs : ¬(parseStudent bigEntity.key_string = "R") := by decide
    have hl : ¬(bigEntity.data.reviewers.length < 99999) := by
      have h99 : bigEntity.data.reviewers.length = 99999 := bigKeys_length 99999
      omega
    rw [if_neg hu, hm]
    rw [if_neg (by simp : ¬(false = true))]
    rw [if_neg hs, if_neg hl]
    rfl

/-- Counterexample to C2 as stated: starting from the empty pool, student
A submits work for unit u and `add_reviewer` is then called with the
reviewer equal to A. The call succeeds (it does not fail with
InvalidInput - the code has no self-review check) and the resulting
reachable state has A's own identifier inside the reviewers dict of A's
record. -/
theorem add_reviewer_self_assign_succeeds :
    Reachable [⟨"A:u", ⟨[], [("A", ⟨none, true, 0⟩)]⟩⟩] ∧
    (∃ e ∈ ([⟨"A:u", ⟨[], [("A", ⟨none, true, 0⟩)]⟩⟩] : Store),
      ∃ p ∈ e.data.reviewers, p.1 = parseStudent e.key_string) ∧
    add_reviewer "A" "u" "A" 0 (submit_student_work "A" "u" [] []) ≠ .error .invalidInput := by
  have hok : add_reviewer "A" "u" "A" 0 (submit_student_work "A" "u" [] [])
      = .ok [⟨"A:u", ⟨[], [("A", ⟨none, true, 0⟩)]⟩⟩] := rfl
  refine ⟨?_, ?_, ?_⟩
  · exact Reachable.add "A" "u" "A" 0 (Reachable.submit "A" "u" [] Reachable.init) hok
  · refine ⟨⟨"A:u", ⟨[], [("A", ⟨none, true, 0⟩)]⟩⟩, by decide, ("A", ⟨none, true, 0⟩), by decide, ?_⟩
    decide
  · intro h
    rw [hok] at h
    simp at h

/-- C2 amended: in every state reachable by the public operations in
which `add_reviewer` is only ever invoked with the reviewer different
from the submitting student (and colon-free student identifiers, the
composite-key separator), no work record's reviewers dict contains the
owning student's identifier. The assignment engine respects this
discipline on its own (it skips the reviewer's own records), but
`add_reviewer` itself performs no check. -/
theorem reachable_no_self_invariant {σ : Store} (h : ReachableNoSelf σ) : SelfFree σ := by
  induction h with
  | init =>
    intro e he
    simp at he
  | submit s u a hσ ih =>
    rename_i σ0
    intro e he p hp
    unfold submit_student_work at he
    rcases mem_putWork he with h2 | h2
    · exact ih e h2 p hp
    · rw [h2] at hp
      simp at hp
  | add s u r now hσ hcolon hne hok ih =>
    rename_i σ0 σ1
    intro e he p hp
    unfold add_reviewer at hok
    cases hw : getWork σ0 (joinKey s u) with
    | none =>
      rw [hw] at hok
      exact absurd hok (by simp)
    | some w =>
      simp only [hw, Except.ok.injEq] at hok
      subst hok
      rcases mem_putWork he with h2 | h2
      · exact ih e h2 p hp
      · rw [h2] at hp
        rw [h2]
        show p.1 ≠ parseStudent (joinKey s u)
        rcases mem_dictInsert hp with h3 | h3
        · rcases getWork_eq_some hw with ⟨e0, he0, hkey, hdata⟩
          have h4 := ih e0 he0 p (by rw [hdata]; exact h3)
          rw [hkey] at h4
          exact h4
        · rw [h3]
          rw [parseStudent_joinKey s u hcolon]
          exact hne
  | review s u r d b hσ hok ih =>
    rename_i σ0 σ1
    intro e he p hp
    unfold submit_review at hok
    cases hw : getWork σ0 (joinKey s u) with
    | none =>
      rw [hw] at hok
      exact absurd hok (by simp)
    | some w =>
      simp only [hw] at hok
      cases hg : dictGet w.reviewers r with
      | none =>
        rw [hg] at hok
        exact absurd hok (by simp)
      | some a =>
        simp only [hg, Except.ok.injEq] at hok
        subst hok
        rcases mem_putWork he with h2 | h2
        · exact ih e h2 p hp
        · rw [h2] at hp
          rw [h2]
          show p.1 ≠ parseStudent (joinKey s u)
          rcases mem_dictInsert hp with h3 | h3
          · rcases getWork_eq_some hw with ⟨e0, he0, hkey, hdata⟩
            have h4 := ih e0 he0 p (by rw [hdata]; exact h3)
            rw [hkey] at h4
            exact h4
          · rcases getWork_eq_some hw with ⟨e0, he0, hkey, hdata⟩
            rcases dictGet_eq_some hg with ⟨p0, hp0, hp0k, _⟩
            have h4 := ih e0 he0 p0 (by rw [hdata]; exact hp0)
            rw [hkey] at h4
            rw [h3]
            show r ≠ parseStudent (joinKey s u)
            rw [← hp0k]
            exact h4
  | del s u r hσ hok ih =>
    rename_i σ0 σ1
    intro e he p hp
    unfold delete_reviewer at hok
    cases hw : getWork σ0 (joinKey s u) with
    | none =>
      rw [hw] at hok
      exact absurd hok (by simp)
    | some w =>
      simp only [hw] at hok
      by_cases hm : dictMem w.reviewers r = true
      · rw [if_pos hm] at hok
        simp only [Except.ok.injEq] at hok
        subst hok
        rcases mem_putWork he with h2 | h2
        · exact ih e h2 p hp
        · rw [h2] at hp
          rw [h2]
          show p.1 ≠ parseStudent (joinKey s u)
          rcases getWork_eq_some hw with ⟨e0, he0, hkey, hdata⟩
          have h4 := ih e0 he0 p (by rw [hdata]; exact mem_dictErase hp)
          rw [hkey] at h4
          exact h4
      · rw [if_neg hm] at hok
        exact absurd hok (by simp)

/-- Witness for the C2 amended theorem: a concrete state reached by a
submit followed by a non-self reviewer assignment satisfies the
invariant. -/
theorem reachable_no_self_invariant_witness :
    SelfFree [⟨"A:u", ⟨[], [("B", ⟨none, true, 5⟩)]⟩⟩] :=
  reachable_no_self_invariant
    (ReachableNoSelf.add "A" "u" "B" 5
      (ReachableNoSelf.submit "A" "u" [] ReachableNoSelf.init)
      (by decide) (by decide) rfl)
